import Mathlib

/-!
Verification of the scatmath computer-algebra kernel: a polynomial engine
generic over a ring (coefficient lists, Karatsuba multiplication,
pseudo-division remainder), an arbitrary-precision integer ring `ZZ`, and a
modular-integer ring (`Zmod` / `ZmodNumber`).

The shallow embedding represents `Polynomial<R>` by its coefficient list
`List R` (index `i` = coefficient of the degree-`i` term) and translates each
Rust method into a Lean function of the same name.  The coefficient ring is a
commutative ring with decidable equality, matching the shipped rings (big
integers and modular integers).  Partial operations of the source (reads of
`b[b.len() - 1]` on an empty divisor, the `usize` underflow in `degree`)
are modeled with `Option`, `none` standing for the panic.
-/

namespace Scatmath

variable {R : Type} [CommRing R] [DecidableEq R]

/-- `Polynomial::from_owned_coefficients`: pops trailing coefficients equal to
`R::zero()` (source: `while let Some(a) = coefficients.last() { if a != &zero {break} coefficients.pop() }`).
Structural form of removing the maximal all-zero suffix. -/
def from_owned_coefficients : List R → List R
  | [] => []
  | c :: cs =>
    match from_owned_coefficients cs with
    | [] => if c = 0 then [] else [c]
    | r => c :: r

/-- The representation invariant of `Polynomial<R>`: the coefficient sequence
never ends in a zero coefficient (the empty list is the zero polynomial). -/
def noTrailingZero (l : List R) : Prop := l.getLast? ≠ some 0

instance noTrailingZero.decidable (l : List R) : Decidable (noTrailingZero l) := by
  unfold noTrailingZero
  infer_instance

/-- `Polynomial::coefficient(i)`: `self.coefficients.get(i).cloned()`. -/
def coefficient (l : List R) (i : ℕ) : Option R := l.get? i

/-- `Polynomial::degree`: the source computes `(self.coefficients.len() - 1).max(0)`
in `usize`.  On an empty list `0usize - 1` underflows: a panic in debug builds
(wrap to `usize::MAX` in release builds); we model that outcome as `none`. -/
def degree (l : List R) : Option ℕ :=
  if l.isEmpty then none else some (max (l.length - 1) 0)

/-- `Polynomial::constant`: coefficient 0, or `R::zero()` when empty. -/
def constant (l : List R) : R :=
  if l.isEmpty then 0 else l.getD 0 0

/-- `Polynomial::is_zero`: empty, or a single coefficient equal to zero. -/
def is_zero (l : List R) : Bool :=
  l.isEmpty || (decide (l.length = 1) && decide (l.getD 0 0 = 0))

/-- `Polynomial::eq_ffn`: equal lengths and pairwise equal coefficients. -/
def eq_ffn (p q : List R) : Bool :=
  decide (p.length = q.length) &&
    (p.zip q).all (fun ab => decide (ab.1 = ab.2))

/-- Pointwise `tgt[i] += src[i]` over the indices of `src`
(`src.iter().enumerate().for_each(|(i, c)| tgt[i] += c)`).  The source indexes
into `tgt`, so it requires `src.len() <= tgt.len()`; on a longer `src` it would
panic, which this total model truncates (that case is unreachable in the engine). -/
def add_into : List R → List R → List R
  | tgt, [] => tgt
  | [], _ => []
  | t :: ts, s :: ss => (t + s) :: add_into ts ss

/-- Pointwise `tgt[i] -= src[i]` over the indices of `src`; same shape as `add_into`. -/
def sub_into : List R → List R → List R
  | tgt, [] => tgt
  | [], _ => []
  | t :: ts, s :: ss => (t - s) :: sub_into ts ss

/-- `Vec::resize(n, R::zero())`: truncate or pad with zeros to length `n`. -/
def resize (l : List R) (n : ℕ) : List R :=
  l.take n ++ List.replicate (n - l.length) 0

/-- `Polynomial::add_ffn`. -/
def add_ffn (p q : List R) : List R :=
  if is_zero p then q
  else if is_zero q then p
  else if q.length ≤ p.length then from_owned_coefficients (add_into p q)
  else from_owned_coefficients (add_into q p)

/-- `Polynomial::add_assign_ffn`: grow the left operand with zero padding when
needed, then add pointwise.  No re-canonicalization in the source. -/
def add_assign_ffn (p q : List R) : List R :=
  add_into (if p.length < q.length then resize p q.length else p) q

/-- `Neg for Polynomial<R>`: negate every coefficient. -/
def neg_ffn (l : List R) : List R := l.map (fun c => -c)

/-- `Polynomial::sub_ffn`: returns `-rhs` when the left operand is zero;
otherwise pads a copy of the left operand and subtracts pointwise.  The source
returns the raw vector without stripping trailing zeros. -/
def sub_ffn (p q : List R) : List R :=
  if is_zero p then neg_ffn q
  else sub_into (if p.length < q.length then resize p q.length else p) q

/-- `Polynomial::sub_assign_ffn`: pad then subtract pointwise, no stripping. -/
def sub_assign_ffn (p q : List R) : List R :=
  sub_into (if p.length < q.length then resize p q.length else p) q

/-- `Polynomial::scalar_mul_ffn`: empty result on a zero scalar, otherwise
multiply every coefficient and re-canonicalize. -/
def scalar_mul_ffn (p : List R) (s : R) : List R :=
  if s = 0 then [] else from_owned_coefficients (p.map (fun c => c * s))

/-- `Polynomial::scalar_mul_assign_ffn`: empty result on a zero scalar,
otherwise multiply every coefficient in place (no re-canonicalization). -/
def scalar_mul_assign_ffn (p : List R) (s : R) : List R :=
  if s = 0 then [] else p.map (fun c => c * s)

/-- `shift_ring_vec`: prepend `shift` ring zeros (multiply by `x^shift`). -/
def shift_ring_vec (v : List R) (shift : ℕ) : List R :=
  if shift = 0 then v else List.replicate shift 0 ++ v

/-- The final recombination of `poly_mul_internal`: index-wise
`p0q0[i] + shifted_mid[i] + shifted_high[i]` with zero defaults, up to the
longest of the three lengths (`a + b + c` with `unwrap_or` zero in the source). -/
def combine3 (x y z : List R) : List R :=
  (List.range ((x.length.max y.length).max z.length)).map
    (fun i => x.getD i 0 + y.getD i 0 + z.getD i 0)

/-- `Polynomial::poly_mul_internal`: Karatsuba multiplication over coefficient
vectors.  The source assumes both vectors have the same (power of two) length;
its out-of-range index reads (`rhs[0]`, `rhs[1]`, `split_at`), which would
panic on shorter right operands, are modeled by `getD _ 0` / `take` / `drop`,
a difference unreachable from `polynomial_mul_ffn`, which equalizes lengths. -/
def poly_mul_internal : List R → List R → List R
  | [], _ => []
  | [a], q => [a * q.getD 0 0]
  | [a, b], q => [a * q.getD 0 0, a * q.getD 1 0 + b * q.getD 0 0, b * q.getD 1 0]
  | p@(_ :: _ :: _ :: _), q =>
    let d := p.length
    let k := d / 2
    let p0q0 := poly_mul_internal (p.take k) (q.take k)
    let p1q0 := poly_mul_internal (p.drop k) (q.take k)
    let p0q1 := poly_mul_internal (p.take k) (q.drop k)
    let p1q1 := poly_mul_internal (p.drop k) (q.drop k)
    combine3 p0q0 (shift_ring_vec (add_into p1q0 p0q1) k) (shift_ring_vec p1q1 d)
termination_by p _ => p.length
decreasing_by
  all_goals simp_all [List.length_take, List.length_drop]
  all_goals omega

/-- The next power of two, `usize::next_power_of_two`: the least power of two
greater than or equal to the argument (1 for 0). -/
def next_power_of_two (n : ℕ) : ℕ := 2 ^ Nat.clog 2 n

/-- `Polynomial::polynomial_mul_ffn`: the if-chain mirrors the source match on
`(lhs.len(), rhs.len())` in arm order: `(0,_) | (_,0) | (1,_) | (_,1) | (2,2) | (d,d_)`. -/
def polynomial_mul_ffn (p q : List R) : List R :=
  if p.length = 0 then []
  else if q.length = 0 then []
  else if p.length = 1 then scalar_mul_ffn q (p.getD 0 0)
  else if q.length = 1 then scalar_mul_ffn p (q.getD 0 0)
  else if p.length = 2 ∧ q.length = 2 then
    from_owned_coefficients
      [p.getD 0 0 * q.getD 0 0,
       p.getD 0 0 * q.getD 1 0 + p.getD 1 0 * q.getD 0 0,
       p.getD 1 0 * q.getD 1 0]
  else
    let n := next_power_of_two (p.length.max q.length)
    from_owned_coefficients (poly_mul_internal (resize p n) (resize q n))

/-- `Polynomial::polynomial_mul_assign_ffn`: compute the pure product, then
replace the left operand with it. -/
def polynomial_mul_assign_ffn (p q : List R) : List R := polynomial_mul_ffn p q

/-- One iteration of the pseudo-division loop body of
`polynomial_remainder_internal`: scale every coefficient of `a` by `lc(b)`,
subtract `b[i] * coeff_a` at positions `i + shift`, then strip trailing zeros. -/
def remStep (a b : List R) : List R :=
  let degB := b.length - 1
  let lcb := b.getD degB 0
  let coeffA := a.getD (a.length - 1) 0
  let shift := (a.length - 1) - degB
  from_owned_coefficients
    ((List.range a.length).map (fun j =>
      if shift ≤ j then a.getD j 0 * lcb - b.getD (j - shift) 0 * coeffA
      else a.getD j 0 * lcb))

/-- The scaled coefficient vector produced inside `remStep` before stripping. -/
def remStepRaw (a b : List R) : List R :=
  (List.range a.length).map (fun j =>
    if (a.length - 1) - (b.length - 1) ≤ j then
      a.getD j 0 * b.getD (b.length - 1) 0 - b.getD (j - ((a.length - 1) - (b.length - 1))) 0 * a.getD (a.length - 1) 0
    else a.getD j 0 * b.getD (b.length - 1) 0)

theorem remStep_eq_strip_raw (a b : List R) :
    remStep a b = from_owned_coefficients (remStepRaw a b) := rfl

theorem strip_cons (c : R) (cs : List R) :
    from_owned_coefficients (c :: cs) =
      match from_owned_coefficients cs with
      | [] => if c = 0 then [] else [c]
      | r => c :: r := rfl

theorem length_strip_le (l : List R) : (from_owned_coefficients l).length ≤ l.length := by
  induction l with
  | nil => simp [from_owned_coefficients]
  | cons c cs ih =>
    rw [strip_cons]
    cases h : from_owned_coefficients cs with
    | nil =>
      by_cases hc : c = 0 <;> simp [hc]
    | cons r rs =>
      rw [h] at ih
      simp only [List.length_cons] at ih ⊢
      omega

/-- `getLast?` of a nonempty list as a `getD` at the last index. -/
theorem getLast?_eq_getD (l : List R) (h : l ≠ []) :
    l.getLast? = some (l.getD (l.length - 1) 0) := by
  induction l with
  | nil => simp at h
  | cons c cs ih =>
    cases cs with
    | nil => simp [List.getD]
    | cons d ds =>
      rw [List.getLast?_cons_cons, ih (by simp)]
      simp [List.getD_cons_succ]

/-- Stripping a list whose last element is zero strictly shortens it. -/
theorem strip_length_lt (l : List R) (h : l.getLast? = some 0) :
    (from_owned_coefficients l).length < l.length := by
  induction l with
  | nil => simp at h
  | cons c cs ih =>
    cases cs with
    | nil =>
      simp only [List.getLast?_singleton, Option.some.injEq] at h
      subst h
      simp [from_owned_coefficients]
    | cons d ds =>
      rw [List.getLast?_cons_cons] at h
      have hlt := ih h
      rw [strip_cons]
      cases hs : from_owned_coefficients (d :: ds) with
      | nil =>
        by_cases hc : c = 0 <;> simp [hc]
      | cons r rs =>
        rw [hs] at hlt
        simp only [List.length_cons]
        simp only [List.length_cons] at hlt
        omega

/-- Each pseudo-division iteration strictly shortens the working dividend:
over a commutative ring the leading coefficient cancels and is stripped. -/
theorem remStep_length_lt (a b : List R) (hb : b ≠ []) (hlen : b.length ≤ a.length) :
    (remStep a b).length < a.length := by
  have hblen : 0 < b.length := List.length_pos.mpr hb
  have halen : 0 < a.length := by omega
  have hlenraw : (remStepRaw a b).length = a.length := by
    simp [remStepRaw]
  have hlast : (remStepRaw a b).getLast? = some 0 := by
    have hraw_ne : remStepRaw a b ≠ [] := by
      intro h
      rw [h] at hlenraw
      simp only [List.length_nil] at hlenraw
      omega
    rw [getLast?_eq_getD _ hraw_ne, hlenraw]
    have hidx : (remStepRaw a b).getD (a.length - 1) 0 =
        a.getD (a.length - 1) 0 * b.getD (b.length - 1) 0 -
          b.getD (b.length - 1) 0 * a.getD (a.length - 1) 0 := by
      have hlt : a.length - 1 < a.length := by omega
      have hshift : (a.length - 1) - (b.length - 1) ≤ a.length - 1 := Nat.sub_le _ _
      have hsub : (a.length - 1) - ((a.length - 1) - (b.length - 1)) = b.length - 1 := by
        omega
      simp only [remStepRaw, List.getD_eq_getElem?_getD, List.getElem?_map,
        List.getElem?_range hlt, Option.map_some', Option.getD_some]
      rw [if_pos hshift, hsub]
    rw [hidx]
    have hc : a.getD (a.length - 1) 0 * b.getD (b.length - 1) 0 -
        b.getD (b.length - 1) 0 * a.getD (a.length - 1) 0 = 0 := by ring
    rw [hc]
  have h1 : (remStep a b).length < (remStepRaw a b).length := by
    rw [remStep_eq_strip_raw]
    exact strip_length_lt _ hlast
  omega

/-- The reduction loop of `polynomial_remainder_internal`
(`while a.len() >= b.len() { ... }`), together with the number of iterations it
performs.  The `b ≠ []` guard reflects that the source reads `b[b.len() - 1]`
before the loop, so the loop is never entered with an empty divisor. -/
def remLoop (a b : List R) : List R × ℕ :=
  if h : b ≠ [] ∧ b.length ≤ a.length then
    ((remLoop (remStep a b) b).1, (remLoop (remStep a b) b).2 + 1)
  else (a, 0)
termination_by a.length
decreasing_by
  all_goals exact remStep_length_lt a b h.1 h.2

/-- `Polynomial::ref_polynomial_remainder_ffn` (`&a % &b`): run the reduction
loop on a copy of the dividend and re-canonicalize.  `none` models the
`b.len() - 1` underflow panic on an empty (zero) divisor. -/
def ref_polynomial_remainder_ffn (p q : List R) : Option (List R) :=
  if q = [] then none
  else some (from_owned_coefficients (remLoop p q).1)

/-- `Polynomial::owned_polynomial_remainder_ffn` (`a % b`): identical to the
by-reference form up to ownership. -/
def owned_polynomial_remainder_ffn (p q : List R) : Option (List R) :=
  if q = [] then none
  else some (from_owned_coefficients (remLoop p q).1)

/-- `Polynomial::polynomial_remainder_assign_ffn` (`a %= b`): runs the loop in
place; the source does not apply `from_owned_coefficients` afterwards. -/
def polynomial_remainder_assign_ffn (p q : List R) : Option (List R) :=
  if q = [] then none else some (remLoop p q).1

/-- The specification-side product: the direct schoolbook convolution of the
two coefficient sequences.  Modelled from the spec: entry `k` is
`sum over i + j = k of p_i * q_j`, for `k` up to `deg p + deg q`. -/
def schoolbook_mul (p q : List R) : List R :=
  (List.range (p.length + q.length - 1)).map
    (fun k => ∑ i in Finset.range (k + 1), p.getD i 0 * q.getD (k - i) 0)

/-- The `k`-th convolution coefficient of two coefficient lists. -/
def convCoeff (p q : List R) (k : ℕ) : R :=
  ∑ i in Finset.range (k + 1), p.getD i 0 * q.getD (k - i) 0

/-- Convolution of two formal coefficient functions (proof-side semantics). -/
def convF (f g : ℕ → R) (k : ℕ) : R :=
  ∑ i in Finset.range (k + 1), f i * g (k - i)

/-- Shift a coefficient function up by `K` places (multiplication by `x^K`). -/
def shiftF (K : ℕ) (f : ℕ → R) : ℕ → R :=
  fun k => if K ≤ k then f (k - K) else 0

/-- The coefficient function of a coefficient list. -/
def coeffFn (l : List R) : ℕ → R := fun i => l.getD i 0

/-!
The integer ring `ZZ` wraps a `rug::Integer`; we model the wrapped value by `ℤ`.
-/

/-- `ZZ::add_ffn`: `ZZ(lhs.0.clone() + &rhs.0)`. -/
def ZZ_add (x y : ℤ) : ℤ := x + y

/-- `impl Neg for ZZ`: the source returns `ZZ(self.0)` — the wrapped integer
unchanged, not its negation. -/
def ZZ_neg (x : ℤ) : ℤ := x

/-- `AdditiveIdentity for ZZ`: `ZZ(Integer::ZERO)`. -/
def ZZ_zero : ℤ := 0

/-!
The modular-integer ring: `Zmod` (the ring factory holding the modulus) and
`ZmodNumber` (an integer paired with an optional shared modulus).
-/

/-- `ZmodNumber`: a `rug::Integer` plus an optional reference-counted modulus. -/
structure ZmodNumber where
  inner : ℤ
  modulus : Option ℤ

/-- `ZmodNumber::new`: Euclidean-reduce the value when a modulus is present
(`n.rem_euc_assign(modulus)`); `Int.emod` agrees with `rug`'s `rem_euc` for a
positive modulus. -/
def ZmodNumber.new (n : ℤ) (m : Option ℤ) : ZmodNumber :=
  match m with
  | some md => ⟨Int.emod n md, some md⟩
  | none => ⟨n, none⟩

/-- `ZmodNumber::reduce_w_modulus`: reduce in place when a modulus is present. -/
def ZmodNumber.reduce_w_modulus (x : ZmodNumber) : ZmodNumber :=
  match x.modulus with
  | none => x
  | some m => ⟨Int.emod x.inner m, some m⟩

/-- `lhs.modulus.clone().or_else(|| rhs.modulus.clone())`: left-preferred. -/
def ZmodNumber.modulus_or (a b : Option ℤ) : Option ℤ :=
  match a with
  | some m => some m
  | none => b

/-- `ZmodNumber::add_ffn`. -/
def ZmodNumber.add_ffn (l r : ZmodNumber) : ZmodNumber :=
  ZmodNumber.new (l.inner + r.inner) (ZmodNumber.modulus_or l.modulus r.modulus)

/-- `ZmodNumber::add_usize_ffn`. -/
def ZmodNumber.add_usize_ffn (l : ZmodNumber) (r : ℕ) : ZmodNumber :=
  ZmodNumber.new (l.inner + r) l.modulus

/-- `ZmodNumber::add_assign_ffn`: add into `lhs.inner`, then reduce. -/
def ZmodNumber.add_assign_ffn (l r : ZmodNumber) : ZmodNumber :=
  ZmodNumber.reduce_w_modulus ⟨l.inner + r.inner, l.modulus⟩

/-- `ZmodNumber::add_assign_usize_ffn`. -/
def ZmodNumber.add_assign_usize_ffn (l : ZmodNumber) (r : ℕ) : ZmodNumber :=
  ZmodNumber.reduce_w_modulus ⟨l.inner + r, l.modulus⟩

/-- `ZmodNumber::sub_ffn`. -/
def ZmodNumber.sub_ffn (l r : ZmodNumber) : ZmodNumber :=
  ZmodNumber.new (l.inner - r.inner) (ZmodNumber.modulus_or l.modulus r.modulus)

/-- `ZmodNumber::sub_usize_ffn`. -/
def ZmodNumber.sub_usize_ffn (l : ZmodNumber) (r : ℕ) : ZmodNumber :=
  ZmodNumber.new (l.inner - r) l.modulus

/-- `ZmodNumber::sub_assign_ffn`. -/
def ZmodNumber.sub_assign_ffn (l r : ZmodNumber) : ZmodNumber :=
  ZmodNumber.reduce_w_modulus ⟨l.inner - r.inner, l.modulus⟩

/-- `ZmodNumber::sub_assign_usize_ffn`. -/
def ZmodNumber.sub_assign_usize_ffn (l : ZmodNumber) (r : ℕ) : ZmodNumber :=
  ZmodNumber.reduce_w_modulus ⟨l.inner - r, l.modulus⟩

/-- `ZmodNumber::mul_ffn`. -/
def ZmodNumber.mul_ffn (l r : ZmodNumber) : ZmodNumber :=
  ZmodNumber.new (l.inner * r.inner) (ZmodNumber.modulus_or l.modulus r.modulus)

/-- `ZmodNumber::mul_usize_ffn`. -/
def ZmodNumber.mul_usize_ffn (l : ZmodNumber) (r : ℕ) : ZmodNumber :=
  ZmodNumber.new (l.inner * r) l.modulus

/-- `ZmodNumber::mul_assign_ffn`. -/
def ZmodNumber.mul_assign_ffn (l r : ZmodNumber) : ZmodNumber :=
  ZmodNumber.reduce_w_modulus ⟨l.inner * r.inner, l.modulus⟩

/-- `ZmodNumber::mul_assign_usize_ffn`. -/
def ZmodNumber.mul_assign_usize_ffn (l : ZmodNumber) (r : ℕ) : ZmodNumber :=
  ZmodNumber.reduce_w_modulus ⟨l.inner * r, l.modulus⟩

/-- `Neg for ZmodNumber`: `ZmodNumber::new(-self.inner().clone(), self.clone_modulus())`. -/
def ZmodNumber.neg_ffn (x : ZmodNumber) : ZmodNumber :=
  ZmodNumber.new (-x.inner) x.modulus

/-- The modular invariant: whenever a modulus is present, the stored integer
lies in the Euclidean residue range `[0, modulus)`. -/
def ZmodNumber.in_range (x : ZmodNumber) : Bool :=
  match x.modulus with
  | none => true
  | some m => decide (0 ≤ x.inner ∧ x.inner < m)

/-- The modulus carried by a value, if any, is positive (always true for
values produced through a validated `Zmod` ring). -/
def ZmodNumber.pos_modulus (x : ZmodNumber) : Bool :=
  match x.modulus with
  | none => true
  | some m => decide (0 < m)

/-- `Zmod`: the ring factory, holding the shared positive modulus. -/
structure Zmod where
  modulus : ℤ

/-- `Zmod::new`: rejects a non-positive modulus with a constructor error. -/
def Zmod.new (m : ℤ) : Except String Zmod :=
  if m ≤ 0 then Except.error "Modulus must be positive" else Except.ok ⟨m⟩

/-- Loop invariant of the pseudo-division reduction: on exit the working
dividend is shorter than the divisor, and the number of iterations is at most
`a.length - b.length + 1` (each iteration strictly shortens the dividend). -/
theorem remLoop_spec (b : List R) (hb : b ≠ []) :
    ∀ n (a : List R), a.length ≤ n →
      (remLoop a b).1.length < b.length ∧
        (remLoop a b).2 ≤ a.length + 1 - b.length := by
  have hb1 : 0 < b.length := List.length_pos.mpr hb
  intro n
  induction n with
  | zero =>
    intro a ha
    rw [remLoop.eq_def, dif_neg (by omega)]
    refine ⟨?_, ?_⟩
    · show a.length < b.length
      omega
    · show 0 ≤ a.length + 1 - b.length
      omega
  | succ n ih =>
    intro a ha
    rw [remLoop.eq_def]
    by_cases h : b ≠ [] ∧ b.length ≤ a.length
    · rw [dif_pos h]
      have hstep := remStep_length_lt a b h.1 h.2
      have hrec := ih (remStep a b) (by omega)
      refine ⟨hrec.1, ?_⟩
      show (remLoop (remStep a b) b).2 + 1 ≤ a.length + 1 - b.length
      have h2 := hrec.2
      omega
    · rw [dif_neg h]
      have hlt : a.length < b.length := by
        rcases Decidable.not_and_iff_or_not.mp h with h1 | h2
        · exact absurd hb h1
        · omega
      refine ⟨?_, ?_⟩
      · show a.length < b.length
        omega
      · show 0 ≤ a.length + 1 - b.length
        omega

/-- Case form of `from_owned_coefficients` on a cons cell. -/
theorem strip_cons_eq (c : R) (cs : List R) :
    from_owned_coefficients (c :: cs) =
      if from_owned_coefficients cs = [] then (if c = 0 then [] else [c])
      else c :: from_owned_coefficients cs := by
  rw [strip_cons]
  cases h : from_owned_coefficients cs with
  | nil => simp
  | cons r rs => simp

theorem getD_eq_zero_of_le (l : List R) (i : ℕ) (h : l.length ≤ i) :
    l.getD i 0 = 0 := by
  induction l generalizing i with
  | nil => simp
  | cons c cs ih =>
    cases i with
    | zero => simp at h
    | succ j =>
      simp only [List.getD_cons_succ]
      exact ih j (by simpa using h)

theorem strip_nil_getD (l : List R) (h : from_owned_coefficients l = []) (i : ℕ) :
    l.getD i 0 = 0 := by
  induction l generalizing i with
  | nil => simp
  | cons c cs ih =>
    rw [strip_cons_eq] at h
    by_cases h1 : from_owned_coefficients cs = []
    · rw [if_pos h1] at h
      by_cases h2 : c = 0
      · cases i with
        | zero => simpa using h2
        | succ j => simpa using ih h1 j
      · rw [if_neg h2] at h
        simp at h
    · rw [if_neg h1] at h
      simp at h

theorem getD_strip (l : List R) (i : ℕ) :
    (from_owned_coefficients l).getD i 0 = l.getD i 0 := by
  induction l generalizing i with
  | nil => rfl
  | cons c cs ih =>
    rw [strip_cons_eq]
    by_cases h1 : from_owned_coefficients cs = []
    · rw [if_pos h1]
      by_cases h2 : c = 0
      · rw [if_pos h2]
        cases i with
        | zero => simp [h2]
        | succ j =>
          rw [List.getD_cons_succ, strip_nil_getD cs h1 j]
          exact getD_eq_zero_of_le _ _ (by simp)
      · rw [if_neg h2]
        cases i with
        | zero => rfl
        | succ j =>
          rw [List.getD_cons_succ, List.getD_cons_succ, strip_nil_getD cs h1 j]
          exact getD_eq_zero_of_le _ _ (by simp)
    · rw [if_neg h1]
      cases i with
      | zero => rfl
      | succ j =>
        rw [List.getD_cons_succ, List.getD_cons_succ]
        exact ih j

theorem noTrailingZero_strip (l : List R) : noTrailingZero (from_owned_coefficients l) := by
  induction l with
  | nil => simp [from_owned_coefficients, noTrailingZero]
  | cons c cs ih =>
    rw [strip_cons]
    cases h : from_owned_coefficients cs with
    | nil =>
      by_cases hc : c = 0 <;> simp [hc, noTrailingZero]
    | cons r rs =>
      rw [h] at ih
      simpa [noTrailingZero, List.getLast?_cons_cons] using ih

theorem eq_nil_of_noTrailingZero (s : List R) (hs : noTrailingZero s)
    (h : ∀ i, s.getD i 0 = 0) : s = [] := by
  by_contra hne
  have hlast := getLast?_eq_getD s hne
  rw [h (s.length - 1)] at hlast
  exact hs hlast

theorem noTrailingZero_tail (c : R) (cs : List R) (h : noTrailingZero (c :: cs)) :
    noTrailingZero cs := by
  cases cs with
  | nil => simp [noTrailingZero]
  | cons d ds => simpa [noTrailingZero, List.getLast?_cons_cons] using h

/-- Two canonical coefficient lists representing the same formal series are
equal: the canonical form is determined by the coefficient function. -/
theorem eq_of_noTrailingZero_ext (r : List R) (hr : noTrailingZero r) :
    ∀ s : List R, noTrailingZero s → (∀ i, r.getD i 0 = s.getD i 0) → r = s := by
  induction r with
  | nil =>
    intro s hs h
    exact (eq_nil_of_noTrailingZero s hs (fun i => by rw [← h i]; simp)).symm
  | cons c cs ih =>
    intro s hs h
    cases s with
    | nil =>
      exact absurd (eq_nil_of_noTrailingZero (c :: cs) hr (fun i => by rw [h i]; simp))
        (by simp)
    | cons d ds =>
      have h0 : c = d := by simpa using h 0
      have htail : ∀ i, cs.getD i 0 = ds.getD i 0 := by
        intro i
        simpa using h (i + 1)
      rw [h0, ih (noTrailingZero_tail c cs hr) ds (noTrailingZero_tail d ds hs) htail]

/-- Strips of pointwise-equal coefficient lists coincide. -/
theorem strip_eq_strip_of_getD (r s : List R) (h : ∀ i, r.getD i 0 = s.getD i 0) :
    from_owned_coefficients r = from_owned_coefficients s :=
  eq_of_noTrailingZero_ext _ (noTrailingZero_strip r) _ (noTrailingZero_strip s)
    (fun i => by rw [getD_strip, getD_strip]; exact h i)

theorem getD_take (l : List R) (k i : ℕ) :
    (l.take k).getD i 0 = if i < k then l.getD i 0 else 0 := by
  induction l generalizing k i with
  | nil => split <;> simp
  | cons c cs ih =>
    cases k with
    | zero => simp
    | succ k2 =>
      cases i with
      | zero => simp
      | succ j =>
        simp only [List.take_succ_cons, List.getD_cons_succ, ih k2 j,
          Nat.succ_lt_succ_iff]

theorem getD_drop (l : List R) (k i : ℕ) :
    (l.drop k).getD i 0 = l.getD (k + i) 0 := by
  induction l generalizing k with
  | nil => simp
  | cons c cs ih =>
    cases k with
    | zero => simp
    | succ k2 =>
      simpa [Nat.succ_add] using ih k2

theorem getD_map_mul (l : List R) (s : R) (i : ℕ) :
    (l.map (fun c => c * s)).getD i 0 = l.getD i 0 * s := by
  induction l generalizing i with
  | nil => simp
  | cons c cs ih =>
    cases i with
    | zero => simp
    | succ j => simpa using ih j

theorem length_add_into (t s : List R) : (add_into t s).length = t.length := by
  induction t generalizing s with
  | nil => cases s <;> simp [add_into]
  | cons a ts ih =>
    cases s with
    | nil => simp [add_into]
    | cons b ss => simp [add_into, ih]

theorem getD_add_into (t s : List R) (h : s.length ≤ t.length) (i : ℕ) :
    (add_into t s).getD i 0 = t.getD i 0 + s.getD i 0 := by
  induction t generalizing s i with
  | nil =>
    have hnil : s = [] := by
      cases s with
      | nil => rfl
      | cons b ss => simp at h
    subst hnil
    simp [add_into]
  | cons a ts ih =>
    cases s with
    | nil => simp [add_into]
    | cons b ss =>
      cases i with
      | zero => simp [add_into]
      | succ j =>
        simp only [add_into, List.getD_cons_succ]
        exact ih ss (by simpa using h) j

theorem getD_replicate_append (s : ℕ) (v : List R) (i : ℕ) :
    (List.replicate s (0 : R) ++ v).getD i 0 =
      if s ≤ i then v.getD (i - s) 0 else 0 := by
  induction s generalizing i with
  | zero => simp
  | succ s2 ih =>
    cases i with
    | zero => simp [List.replicate_succ]
    | succ j =>
      simpa [List.replicate_succ, Nat.succ_le_succ_iff] using ih j

theorem getD_shift (v : List R) (s i : ℕ) :
    (shift_ring_vec v s).getD i 0 = if s ≤ i then v.getD (i - s) 0 else 0 := by
  unfold shift_ring_vec
  split
  · next h => subst h; simp
  · exact getD_replicate_append s v i

theorem length_shift (v : List R) (s : ℕ) :
    (shift_ring_vec v s).length = s + v.length := by
  unfold shift_ring_vec
  split <;> simp_all

theorem getD_range_map (f : ℕ → R) (n i : ℕ) :
    ((List.range n).map f).getD i 0 = if i < n then f i else 0 := by
  rcases lt_or_ge i n with h | h
  · rw [if_pos h, List.getD_eq_getElem?_getD]
    simp [List.getElem?_range h]
  · rw [if_neg (by omega)]
    exact getD_eq_zero_of_le _ _ (by simpa using h)

theorem getD_combine3 (x y z : List R) (i : ℕ) :
    (combine3 x y z).getD i 0 = x.getD i 0 + y.getD i 0 + z.getD i 0 := by
  unfold combine3
  rw [getD_range_map]
  split
  · rfl
  · next h =>
    have hb : (x.length.max y.length).max z.length ≤ i := Nat.le_of_not_lt h
    have hx : x.length ≤ i :=
      le_trans (le_trans (Nat.le_max_left _ _) (Nat.le_max_left _ _)) hb
    have hy : y.length ≤ i :=
      le_trans (le_trans (Nat.le_max_right _ _) (Nat.le_max_left _ _)) hb
    have hz : z.length ≤ i := le_trans (Nat.le_max_right _ _) hb
    rw [getD_eq_zero_of_le x i hx, getD_eq_zero_of_le y i hy,
      getD_eq_zero_of_le z i hz]
    simp

theorem length_combine3 (x y z : List R) :
    (combine3 x y z).length = (x.length.max y.length).max z.length := by
  simp [combine3]

theorem getD_append_replicate_right (l : List R) (m i : ℕ) :
    (l ++ List.replicate m (0 : R)).getD i 0 = l.getD i 0 := by
  induction l generalizing i with
  | nil =>
    simp only [List.nil_append]
    induction m generalizing i with
    | zero => simp
    | succ m2 ihm =>
      cases i with
      | zero => simp
      | succ j => simpa using ihm j
  | cons c cs ih =>
    cases i with
    | zero => simp
    | succ j => simpa using ih j

theorem getD_resize (l : List R) (n : ℕ) (h : l.length ≤ n) (i : ℕ) :
    (resize l n).getD i 0 = l.getD i 0 := by
  unfold resize
  rw [List.take_of_length_le h]
  exact getD_append_replicate_right l _ i

theorem length_resize (l : List R) (n : ℕ) (h : l.length ≤ n) :
    (resize l n).length = n := by
  unfold resize
  rw [List.take_of_length_le h]
  simp
  omega

theorem convCoeff_eq_convF (p q : List R) (k : ℕ) :
    convCoeff p q k = convF (coeffFn p) (coeffFn q) k := rfl

theorem convF_congr (f f2 g g2 : ℕ → R) (hf : ∀ i, f i = f2 i)
    (hg : ∀ i, g i = g2 i) (k : ℕ) : convF f g k = convF f2 g2 k :=
  Finset.sum_congr rfl (fun i _ => by rw [hf, hg])

theorem convF_add_left (f f2 g : ℕ → R) (k : ℕ) :
    convF (fun i => f i + f2 i) g k = convF f g k + convF f2 g k := by
  unfold convF
  rw [← Finset.sum_add_distrib]
  exact Finset.sum_congr rfl (fun i _ => add_mul _ _ _)

theorem convF_add_right (f g g2 : ℕ → R) (k : ℕ) :
    convF f (fun i => g i + g2 i) k = convF f g k + convF f g2 k := by
  unfold convF
  rw [← Finset.sum_add_distrib]
  exact Finset.sum_congr rfl (fun i _ => mul_add _ _ _)

theorem convF_comm (f g : ℕ → R) (k : ℕ) : convF f g k = convF g f k := by
  unfold convF
  rw [← Finset.sum_range_reflect (fun j => g j * f (k - j)) (k + 1)]
  refine Finset.sum_congr rfl (fun i hi => ?_)
  have hik : i ≤ k := by
    have := Finset.mem_range.mp hi
    omega
  have h1 : k + 1 - 1 - i = k - i := by omega
  have h2 : k - (k - i) = i := by omega
  rw [h1, h2, mul_comm]

theorem shiftF_congr (K : ℕ) (u v : ℕ → R) (h : ∀ j, u j = v j) (k : ℕ) :
    shiftF K u k = shiftF K v k := by
  unfold shiftF
  split <;> simp [h]

theorem shiftF_add (K : ℕ) (u v : ℕ → R) (k : ℕ) :
    shiftF K (fun j => u j + v j) k = shiftF K u k + shiftF K v k := by
  unfold shiftF
  split <;> simp

theorem shiftF_shiftF (K1 K2 : ℕ) (f : ℕ → R) (k : ℕ) :
    shiftF K1 (shiftF K2 f) k = shiftF (K1 + K2) f k := by
  unfold shiftF
  rcases le_or_lt (K1 + K2) k with h | h
  · rw [if_pos (by omega), if_pos (by omega), if_pos (by omega)]
    congr 1
    omega
  · by_cases h1 : K1 ≤ k
    · rw [if_pos h1, if_neg (show ¬ K2 ≤ k - K1 by omega),
        if_neg (show ¬ K1 + K2 ≤ k by omega)]
    · rw [if_neg h1, if_neg (show ¬ K1 + K2 ≤ k by omega)]

theorem convF_shiftF_left (K : ℕ) (f g : ℕ → R) (k : ℕ) :
    convF (shiftF K f) g k = shiftF K (convF f g) k := by
  unfold convF shiftF
  rcases lt_or_ge k K with h | h
  · rw [if_neg (by omega)]
    refine Finset.sum_eq_zero (fun i hi => ?_)
    have := Finset.mem_range.mp hi
    rw [if_neg (by omega), zero_mul]
  · rw [if_pos h, Finset.range_eq_Ico,
      ← Finset.sum_Ico_consecutive _ (Nat.zero_le K) (by omega : K ≤ k + 1)]
    have h1 : ∑ i in Finset.Ico 0 K, (if K ≤ i then f (i - K) else 0) * g (k - i) = 0 := by
      refine Finset.sum_eq_zero (fun i hi => ?_)
      have := (Finset.mem_Ico.mp hi).2
      rw [if_neg (by omega), zero_mul]
    rw [h1, zero_add, Finset.sum_Ico_eq_sum_range]
    have hset : k + 1 - K = k - K + 1 := by omega
    rw [hset, Finset.range_eq_Ico]
    refine Finset.sum_congr rfl (fun j hj => ?_)
    rw [if_pos (Nat.le_add_right K j)]
    have e1 : K + j - K = j := by omega
    have e2 : k - (K + j) = k - K - j := by omega
    rw [e1, e2]

theorem convF_shiftF_right (K : ℕ) (f g : ℕ → R) (k : ℕ) :
    convF f (shiftF K g) k = shiftF K (convF f g) k := by
  rw [convF_comm, convF_shiftF_left]
  exact shiftF_congr K _ _ (fun j => convF_comm g f j) k

theorem convF_shiftF_left_fun (K : ℕ) (f g : ℕ → R) :
    convF (shiftF K f) g = shiftF K (convF f g) :=
  funext (convF_shiftF_left K f g)

theorem convF_shiftF_right_fun (K : ℕ) (f g : ℕ → R) :
    convF f (shiftF K g) = shiftF K (convF f g) :=
  funext (convF_shiftF_right K f g)

theorem shiftF_shiftF_fun (K1 K2 : ℕ) (f : ℕ → R) :
    shiftF K1 (shiftF K2 f) = shiftF (K1 + K2) f :=
  funext (shiftF_shiftF K1 K2 f)

/-- Splitting a coefficient list at `K` splits its coefficient function into a
low part and a `K`-shifted high part. -/
theorem coeffFn_split (p : List R) (K : ℕ) (hK : K ≤ p.length) (i : ℕ) :
    coeffFn p i = coeffFn (p.take K) i + shiftF K (coeffFn (p.drop K)) i := by
  unfold shiftF coeffFn
  rcases lt_or_ge i K with h | h
  · rw [if_neg (by omega), getD_take, if_pos h, add_zero]
  · rw [if_pos h, getD_take, if_neg (by omega), getD_drop, zero_add]
    congr 1
    omega

/-- The Karatsuba recombination identity for convolution coefficients:
`p * q = p0*q0 + x^K (p1*q0 + p0*q1) + x^(2K) (p1*q1)` where `(p0, p1)` and
`(q0, q1)` split `p` and `q` at position `K`. -/
theorem convCoeff_split (p q : List R) (K : ℕ) (hp : K ≤ p.length)
    (hq : K ≤ q.length) (k : ℕ) :
    convCoeff p q k =
      convCoeff (p.take K) (q.take K) k +
        shiftF K (fun j => convCoeff (p.drop K) (q.take K) j +
          convCoeff (p.take K) (q.drop K) j) k +
        shiftF (K + K) (fun j => convCoeff (p.drop K) (q.drop K) j) k := by
  have step1 : convCoeff p q k =
      convF (fun i => coeffFn (p.take K) i + shiftF K (coeffFn (p.drop K)) i)
        (fun i => coeffFn (q.take K) i + shiftF K (coeffFn (q.drop K)) i) k := by
    rw [convCoeff_eq_convF]
    exact convF_congr _ _ _ _ (coeffFn_split p K hp) (coeffFn_split q K hq) k
  rw [step1, convF_add_left, convF_add_right, convF_add_right]
  simp only [convF_shiftF_left_fun, convF_shiftF_right_fun, shiftF_shiftF_fun]
  simp only [convCoeff_eq_convF, shiftF_add]
  ring

theorem convCoeff_eq_zero_of_le (p q : List R) (k : ℕ)
    (h : p.length + q.length ≤ k + 1) : convCoeff p q k = 0 := by
  unfold convCoeff
  refine Finset.sum_eq_zero (fun i hi => ?_)
  have hik : i ≤ k := by
    have := Finset.mem_range.mp hi
    omega
  rcases lt_or_ge i p.length with h1 | h1
  · rw [getD_eq_zero_of_le q (k - i) (by omega), mul_zero]
  · rw [getD_eq_zero_of_le p i h1, zero_mul]

theorem convCoeff_nil_left (q : List R) (k : ℕ) : convCoeff [] q k = 0 := by
  unfold convCoeff
  refine Finset.sum_eq_zero (fun i hi => ?_)
  simp

theorem convCoeff_nil_right (p : List R) (k : ℕ) : convCoeff p [] k = 0 := by
  unfold convCoeff
  refine Finset.sum_eq_zero (fun i hi => ?_)
  simp

theorem convCoeff_single_left (a : R) (q : List R) (k : ℕ) :
    convCoeff [a] q k = a * q.getD k 0 := by
  unfold convCoeff
  rw [Finset.sum_eq_single 0]
  · simp
  · intro i hi hne
    rw [getD_eq_zero_of_le [a] i (by simp; omega), zero_mul]
  · intro h
    simp at h

theorem convCoeff_single_right (p : List R) (b : R) (k : ℕ) :
    convCoeff p [b] k = p.getD k 0 * b := by
  rw [convCoeff_eq_convF, convF_comm, ← convCoeff_eq_convF, convCoeff_single_left,
    mul_comm]

theorem natMax_eq (x y : ℕ) : Nat.max x y = max x y := rfl

/-- Unfolding of the Karatsuba recursion on inputs of length at least 3. -/
theorem poly_mul_internal_big (p q : List R) (h : 3 ≤ p.length) :
    poly_mul_internal p q =
      combine3
        (poly_mul_internal (p.take (p.length / 2)) (q.take (p.length / 2)))
        (shift_ring_vec
          (add_into (poly_mul_internal (p.drop (p.length / 2)) (q.take (p.length / 2)))
            (poly_mul_internal (p.take (p.length / 2)) (q.drop (p.length / 2))))
          (p.length / 2))
        (shift_ring_vec
          (poly_mul_internal (p.drop (p.length / 2)) (q.drop (p.length / 2)))
          p.length) := by
  rcases p with _ | ⟨x1, _ | ⟨x2, _ | ⟨x3, t⟩⟩⟩
  · simp at h
  · simp at h
  · simp at h
  · rw [poly_mul_internal]

/-- Correctness and length of the Karatsuba core on equal power-of-two-length
inputs: the result is exactly the convolution of the two coefficient lists. -/
theorem poly_mul_internal_spec :
    ∀ (e : ℕ) (p q : List R), p.length = 2 ^ e → q.length = 2 ^ e →
      (poly_mul_internal p q).length = 2 ^ (e + 1) - 1 ∧
        ∀ k, (poly_mul_internal p q).getD k 0 = convCoeff p q k := by
  intro e
  induction e with
  | zero =>
    intro p q hp hq
    obtain ⟨a, rfl⟩ := List.length_eq_one.mp (by simpa using hp)
    obtain ⟨b, rfl⟩ := List.length_eq_one.mp (by simpa using hq)
    constructor
    · simp [poly_mul_internal]
    · intro k
      cases k with
      | zero => simp [poly_mul_internal, convCoeff]
      | succ j =>
        have hL : (poly_mul_internal [a] [b]).length ≤ j + 1 := by
          simp [poly_mul_internal]
        rw [getD_eq_zero_of_le _ _ hL]
        symm
        exact convCoeff_eq_zero_of_le _ _ _ (by simp)
  | succ e ih =>
    intro p q hp hq
    cases e with
    | zero =>
      obtain ⟨a, b, rfl⟩ := List.length_eq_two.mp (by simpa using hp)
      obtain ⟨c, d, rfl⟩ := List.length_eq_two.mp (by simpa using hq)
      constructor
      · simp [poly_mul_internal]
      · intro k
        match k with
        | 0 =>
          simp [poly_mul_internal, convCoeff, Finset.sum_range_succ]
        | 1 =>
          simp [poly_mul_internal, convCoeff, Finset.sum_range_succ]
        | 2 =>
          simp [poly_mul_internal, convCoeff, Finset.sum_range_succ]
        | (j + 3) =>
          have hL : (poly_mul_internal [a, b] [c, d]).length ≤ j + 3 := by
            simp [poly_mul_internal]
          rw [getD_eq_zero_of_le _ _ hL]
          symm
          exact convCoeff_eq_zero_of_le _ _ _ (by simp)
    | succ e2 =>
      have hpos : 0 < (2 : ℕ) ^ (e2 + 1) := pow_pos (by norm_num) _
      have h2Kp : p.length = 2 ^ (e2 + 1) + 2 ^ (e2 + 1) := by
        rw [hp, pow_succ]
        ring
      have h2Kq : q.length = 2 ^ (e2 + 1) + 2 ^ (e2 + 1) := by
        rw [hq, pow_succ]
        ring
      have hKp : p.length / 2 = 2 ^ (e2 + 1) := by
        rw [hp, pow_succ, Nat.mul_div_cancel _ (by norm_num)]
      have h3 : 3 ≤ p.length := by omega
      have hlt_p0 : (p.take (p.length / 2)).length = 2 ^ (e2 + 1) := by
        rw [hKp, List.length_take, min_eq_left (by omega)]
      have hlt_q0 : (q.take (p.length / 2)).length = 2 ^ (e2 + 1) := by
        rw [hKp, List.length_take, min_eq_left (by omega)]
      have hlt_p1 : (p.drop (p.length / 2)).length = 2 ^ (e2 + 1) := by
        rw [hKp, List.length_drop]
        omega
      have hlt_q1 : (q.drop (p.length / 2)).length = 2 ^ (e2 + 1) := by
        rw [hKp, List.length_drop]
        omega
      obtain ⟨hlen00, hgd00⟩ := ih _ _ hlt_p0 hlt_q0
      obtain ⟨hlen10, hgd10⟩ := ih _ _ hlt_p1 hlt_q0
      obtain ⟨hlen01, hgd01⟩ := ih _ _ hlt_p0 hlt_q1
      obtain ⟨hlen11, hgd11⟩ := ih _ _ hlt_p1 hlt_q1
      rw [poly_mul_internal_big p q h3]
      constructor
      · rw [length_combine3, length_shift, length_shift, length_add_into,
          hlen00, hlen10, hlen11]
        have hA : (2 : ℕ) ^ (e2 + 1 + 1) = 2 ^ (e2 + 1) + 2 ^ (e2 + 1) := by
          rw [pow_succ]
          ring
        have hB : (2 : ℕ) ^ (e2 + 1 + 1 + 1) =
            2 ^ (e2 + 1) + 2 ^ (e2 + 1) + 2 ^ (e2 + 1) + 2 ^ (e2 + 1) := by
          rw [pow_succ, pow_succ]
          ring
        rw [hA, hB, hKp, h2Kp, natMax_eq, natMax_eq]
        omega
      · intro k0
        rw [getD_combine3, getD_shift, getD_shift,
          getD_add_into _ _ (le_of_eq (hlen01.trans hlen10.symm)),
          hgd00, hgd10, hgd01, hgd11,
          convCoeff_split p q (p.length / 2) (by omega) (by omega) k0]
        simp only [shiftF]
        rw [show p.length / 2 + p.length / 2 = p.length by omega]

theorem getD_schoolbook (p q : List R) (k : ℕ) :
    (schoolbook_mul p q).getD k 0 = convCoeff p q k := by
  unfold schoolbook_mul
  rw [getD_range_map]
  split
  · rfl
  · next h =>
    symm
    exact convCoeff_eq_zero_of_le _ _ _ (by omega)

theorem getD_scalar_mul (x : List R) (s : R) (i : ℕ) :
    (scalar_mul_ffn x s).getD i 0 = x.getD i 0 * s := by
  unfold scalar_mul_ffn
  split
  · next hs =>
    subst hs
    simp
  · rw [getD_strip, getD_map_mul]

/-- Every arm of `polynomial_mul_ffn` computes the convolution pointwise. -/
theorem polynomial_mul_getD (p q : List R) (k : ℕ) :
    (polynomial_mul_ffn p q).getD k 0 = convCoeff p q k := by
  unfold polynomial_mul_ffn
  split_ifs with h0 h1 h2 h3 h4
  · obtain rfl : p = [] := List.length_eq_zero.mp h0
    rw [convCoeff_nil_left]
    simp
  · obtain rfl : q = [] := List.length_eq_zero.mp h1
    rw [convCoeff_nil_right]
    simp
  · obtain ⟨a, rfl⟩ := List.length_eq_one.mp h2
    rw [getD_scalar_mul]
    have ha : ([a] : List R).getD 0 0 = a := rfl
    rw [ha, convCoeff_single_left, mul_comm]
  · obtain ⟨b, rfl⟩ := List.length_eq_one.mp h3
    rw [getD_scalar_mul]
    have hb : ([b] : List R).getD 0 0 = b := rfl
    rw [hb, convCoeff_single_right]
  · obtain ⟨a, b, rfl⟩ := List.length_eq_two.mp h4.1
    obtain ⟨c, d, rfl⟩ := List.length_eq_two.mp h4.2
    rw [getD_strip]
    have h5 := (poly_mul_internal_spec 1 [a, b] [c, d] (by simp) (by simp)).2 k
    simp only [poly_mul_internal] at h5
    simpa using h5
  · simp only []
    rw [getD_strip]
    have hple : p.length ≤ next_power_of_two (p.length.max q.length) :=
      le_trans (le_trans (Nat.le_max_left _ _) (le_refl _))
        (Nat.le_pow_clog (by norm_num) _)
    have hqle : q.length ≤ next_power_of_two (p.length.max q.length) :=
      le_trans (Nat.le_max_right _ _) (Nat.le_pow_clog (by norm_num) _)
    have hrp := length_resize p _ hple
    have hrq := length_resize q _ hqle
    have h6 := (poly_mul_internal_spec (Nat.clog 2 (p.length.max q.length))
      (resize p (next_power_of_two (p.length.max q.length)))
      (resize q (next_power_of_two (p.length.max q.length))) hrp hrq).2 k
    rw [h6, convCoeff_eq_convF, convCoeff_eq_convF]
    exact convF_congr _ _ _ _ (fun i => getD_resize p _ hple i)
      (fun i => getD_resize q _ hqle i) k


/-- The in-place reduction loop keeps the dividend free of trailing zeros
(every executed iteration ends in a strip; with no iteration the input is
returned unchanged). -/
theorem remLoop_noTrailingZero (b : List R) :
    ∀ n (a : List R), a.length ≤ n → noTrailingZero a →
      noTrailingZero (remLoop a b).1 := by
  intro n
  induction n with
  | zero =>
    intro a ha hA
    rw [remLoop.eq_def]
    split
    · next h =>
      have := List.length_pos.mpr h.1
      omega
    · exact hA
  | succ n ih =>
    intro a ha hA
    rw [remLoop.eq_def]
    by_cases h : b ≠ [] ∧ b.length ≤ a.length
    · rw [dif_pos h]
      have hstep := remStep_length_lt a b h.1 h.2
      exact ih (remStep a b) (by omega)
        (by rw [remStep_eq_strip_raw]; exact noTrailingZero_strip _)
    · rw [dif_neg h]
      exact hA

theorem noTrailingZero_neg (l : List R) (h : noTrailingZero l) :
    noTrailingZero (neg_ffn l) := by
  induction l with
  | nil => simpa [neg_ffn] using h
  | cons c cs ih =>
    cases cs with
    | nil =>
      simp only [noTrailingZero, neg_ffn, List.map_cons, List.map_nil,
        List.getLast?_singleton, ne_eq, Option.some.injEq] at h ⊢
      simpa [neg_eq_zero] using h
    | cons d ds =>
      have h2 : noTrailingZero (d :: ds) := by
        simpa [noTrailingZero, List.getLast?_cons_cons] using h
      have h3 := ih h2
      simpa [noTrailingZero, neg_ffn, List.getLast?_cons_cons] using h3

theorem noTrailingZero_scalar_mul (x : List R) (s : R) :
    noTrailingZero (scalar_mul_ffn x s) := by
  unfold scalar_mul_ffn
  split
  · simp [noTrailingZero]
  · exact noTrailingZero_strip _

theorem noTrailingZero_polynomial_mul (p q : List R) :
    noTrailingZero (polynomial_mul_ffn p q) := by
  unfold polynomial_mul_ffn
  split_ifs
  all_goals
    first
      | exact noTrailingZero_scalar_mul _ _
      | exact noTrailingZero_strip _
      | simp [noTrailingZero]

/-- Claim C1: for every pair of coefficient lists over a commutative ring, the
engine's polynomial product — degenerate-case dispatch plus power-of-two
padding and recursive Karatsuba — equals the direct schoolbook convolution of
the coefficient sequences in canonical (trailing-zero-stripped) form. -/
theorem polynomial_mul_eq_schoolbook (p q : List R) :
    polynomial_mul_ffn p q = from_owned_coefficients (schoolbook_mul p q) := by
  refine eq_of_noTrailingZero_ext _ (noTrailingZero_polynomial_mul p q) _
    (noTrailingZero_strip _) (fun i => ?_)
  rw [polynomial_mul_getD, getD_strip, getD_schoolbook]

/-- Claim C3 (counterexample to the claim as stated): the mutating assignment
forms of addition and subtraction, the non-mutating subtraction, and — over a
ring with zero divisors — the mutating scalar multiplication all return stored
coefficient vectors that end in a zero coefficient. -/
theorem canonicity_counterexample :
    add_assign_ffn [(1 : ℤ)] [-1] = [0] ∧
      sub_assign_ffn [(1 : ℤ)] [1] = [0] ∧
      sub_ffn [(1 : ℤ)] [1] = [0] ∧
      scalar_mul_assign_ffn [(1 : ZMod 4), 2] 2 = [2, 0] ∧
      ¬ noTrailingZero [(0 : ℤ)] ∧
      ¬ noTrailingZero [(2 : ZMod 4), 0] := by
  decide

/-- Claim C3 (amended): construction and the non-mutating addition, negation,
scalar multiplication, polynomial multiplication (with its assignment form,
which recomputes the pure product), and all polynomial-remainder forms preserve
the no-trailing-zero invariant on canonical inputs; the amendment drops the
mutating assignment forms of addition, subtraction, and scalar multiplication
and the non-mutating subtraction, which do not re-canonicalize. -/
theorem canonicity_preservation (l p q b : List R) (s : R)
    (hp : noTrailingZero p) (hq : noTrailingZero q) :
    noTrailingZero (from_owned_coefficients l) ∧
      noTrailingZero (add_ffn p q) ∧
      noTrailingZero (neg_ffn p) ∧
      noTrailingZero (scalar_mul_ffn p s) ∧
      noTrailingZero (polynomial_mul_ffn p q) ∧
      noTrailingZero (polynomial_mul_assign_ffn p q) ∧
      (∀ r, ref_polynomial_remainder_ffn p b = some r → noTrailingZero r) ∧
      (∀ r, owned_polynomial_remainder_ffn p b = some r → noTrailingZero r) ∧
      (∀ r, polynomial_remainder_assign_ffn p b = some r → noTrailingZero r) := by
  refine ⟨noTrailingZero_strip l, ?_, noTrailingZero_neg p hp,
    noTrailingZero_scalar_mul p s, noTrailingZero_polynomial_mul p q,
    noTrailingZero_polynomial_mul p q, ?_, ?_, ?_⟩
  · unfold add_ffn
    split_ifs
    · exact hq
    · exact hp
    · exact noTrailingZero_strip _
    · exact noTrailingZero_strip _
  · intro r hr
    unfold ref_polynomial_remainder_ffn at hr
    split_ifs at hr
    simp only [Option.some.injEq] at hr
    subst hr
    exact noTrailingZero_strip _
  · intro r hr
    unfold owned_polynomial_remainder_ffn at hr
    split_ifs at hr
    simp only [Option.some.injEq] at hr
    subst hr
    exact noTrailingZero_strip _
  · intro r hr
    unfold polynomial_remainder_assign_ffn at hr
    split_ifs at hr with hbe
    simp only [Option.some.injEq] at hr
    subst hr
    exact remLoop_noTrailingZero b p.length p le_rfl hp

/-- Witness for C3 (amended) at concrete canonical inputs over the integers. -/
theorem canonicity_preservation_witness :
    noTrailingZero (from_owned_coefficients [(0 : ℤ), 1, 0]) ∧
      noTrailingZero (add_ffn [(1 : ℤ), 2] [3, 4]) ∧
      noTrailingZero (neg_ffn [(1 : ℤ), 2]) ∧
      noTrailingZero (scalar_mul_ffn [(1 : ℤ), 2] 3) ∧
      noTrailingZero (polynomial_mul_ffn [(1 : ℤ), 2] [3, 4]) ∧
      noTrailingZero (polynomial_mul_assign_ffn [(1 : ℤ), 2] [3, 4]) ∧
      (∀ r, ref_polynomial_remainder_ffn [(1 : ℤ), 2] [1, 1] = some r → noTrailingZero r) ∧
      (∀ r, owned_polynomial_remainder_ffn [(1 : ℤ), 2] [1, 1] = some r → noTrailingZero r) ∧
      (∀ r, polynomial_remainder_assign_ffn [(1 : ℤ), 2] [1, 1] = some r → noTrailingZero r) :=
  canonicity_preservation [(0 : ℤ), 1, 0] [(1 : ℤ), 2] [3, 4] [1, 1] 3
    (by decide) (by decide)

/-- Claim C2: for a non-zero divisor `b`, the pseudo-remainder `a % b`
(`ref_polynomial_remainder_ffn`, identically `owned_polynomial_remainder_ffn`)
is the canonicalized loop result, and it is either the zero polynomial or has
degree strictly below the divisor's degree. -/
theorem remainder_degree_lt_divisor (a b : List R) (hb : b ≠ []) :
    ref_polynomial_remainder_ffn a b =
        some (from_owned_coefficients (remLoop a b).1) ∧
      (from_owned_coefficients (remLoop a b).1 = [] ∨
        (from_owned_coefficients (remLoop a b).1).length - 1 < b.length - 1) := by
  have h := (remLoop_spec b hb a.length a le_rfl).1
  have hs := length_strip_le (remLoop a b).1
  constructor
  · simp [ref_polynomial_remainder_ffn, hb]
  · by_cases hr : from_owned_coefficients (remLoop a b).1 = []
    · exact Or.inl hr
    · refine Or.inr ?_
      have hpos : 0 < (from_owned_coefficients (remLoop a b).1).length :=
        List.length_pos.mpr hr
      omega

/-- Witness for C2: `x^3 + 1` divided by `x + 1` over the integers. -/
theorem remainder_degree_lt_divisor_witness :
    ref_polynomial_remainder_ffn [(1 : ℤ), 0, 0, 1] [1, 1] =
        some (from_owned_coefficients (remLoop [(1 : ℤ), 0, 0, 1] [1, 1]).1) ∧
      (from_owned_coefficients (remLoop [(1 : ℤ), 0, 0, 1] [1, 1]).1 = [] ∨
        (from_owned_coefficients (remLoop [(1 : ℤ), 0, 0, 1] [1, 1]).1).length - 1 <
          [(1 : ℤ), 1].length - 1) :=
  remainder_degree_lt_divisor [(1 : ℤ), 0, 0, 1] [1, 1] (by decide)

/-- Claim C7: the pseudo-division loop terminates (it is a total function whose
every iteration strictly shortens the working dividend), and its iteration
count is at most `deg(A) - deg(B) + 1`. -/
theorem remainder_loop_iteration_bound (a b : List R) (hb : b ≠ []) :
    (b.length ≤ a.length → (remStep a b).length < a.length) ∧
      (remLoop a b).2 ≤ (a.length - 1) - (b.length - 1) + 1 := by
  refine ⟨fun h => remStep_length_lt a b hb h, ?_⟩
  have h := (remLoop_spec b hb a.length a le_rfl).2
  have hb1 : 0 < b.length := List.length_pos.mpr hb
  omega

/-- Witness for C7 at the concrete inputs of the C2 witness (the bound is tight
there: three iterations for `deg(A) = 3`, `deg(B) = 1`). -/
theorem remainder_loop_iteration_bound_witness :
    (([(1 : ℤ), 1] : List ℤ).length ≤ ([(1 : ℤ), 0, 0, 1] : List ℤ).length →
        (remStep [(1 : ℤ), 0, 0, 1] [1, 1]).length < ([(1 : ℤ), 0, 0, 1] : List ℤ).length) ∧
      (remLoop [(1 : ℤ), 0, 0, 1] [1, 1]).2 ≤
        (([(1 : ℤ), 0, 0, 1] : List ℤ).length - 1) - (([(1 : ℤ), 1] : List ℤ).length - 1) + 1 :=
  remainder_loop_iteration_bound [(1 : ℤ), 0, 0, 1] [1, 1] (by decide)

/-!
Claim theorems for the simple claims.
-/

/-- Claim C5: refuted as stated by the source — `impl Neg for ZZ` returns
`ZZ(self.0)`, the value unchanged, so negation is the identity and
`x + (-x) = 2x`, which differs from the ring's zero at `x = 1`.  This theorem
evaluates the translated code at that failing input. -/
theorem zz_neg_is_identity_not_inverse :
    ZZ_neg 1 = 1 ∧ ZZ_add 1 (ZZ_neg 1) = 2 ∧ ¬ ZZ_add 1 (ZZ_neg 1) = ZZ_zero := by
  decide

/-- Claim C6: refuted as stated by the source — `degree()` computes
`(len - 1).max(0)` in `usize`, so on the empty coefficient sequence the
subtraction underflows (debug panic / `usize::MAX` wrap) instead of giving 0.
This theorem evaluates the translated code at the failing input (the zero
polynomial) and on representative non-empty inputs. -/
theorem degree_underflows_on_zero_polynomial :
    degree ([] : List ℤ) = none ∧
      degree [(7 : ℤ)] = some 0 ∧ degree [(1 : ℤ), 2, 3] = some 2 := by
  decide

/-- Claim C4: refuted as stated by the source — `sub_ffn` does not strip
trailing zeros, so `P - P` for `P = [1]` is the stored vector `[0]`, which the
length-sensitive `eq_ffn` reports as different from the empty zero polynomial;
the additive-identity half does hold at this input.  This theorem evaluates
the translated code at the failing input. -/
theorem sub_self_ne_zero_polynomial :
    sub_ffn [(1 : ℤ)] [(1 : ℤ)] = [0] ∧
      eq_ffn (sub_ffn [(1 : ℤ)] [(1 : ℤ)]) ([] : List ℤ) = false ∧
      eq_ffn (add_ffn [(1 : ℤ)] ([] : List ℤ)) [(1 : ℤ)] = true := by
  decide

/-- Claim C9: `Zmod::new` fails synchronously on a non-positive modulus and
succeeds, storing the modulus, on a positive one. -/
theorem zmod_new_validates_modulus (m : ℤ) :
    (m ≤ 0 → Zmod.new m = Except.error "Modulus must be positive") ∧
      (0 < m → Zmod.new m = Except.ok ⟨m⟩) := by
  constructor
  · intro h
    simp [Zmod.new, h]
  · intro h
    simp [Zmod.new]
    omega

/-- Witness for C9 at the concrete moduli `-1` and `5`. -/
theorem zmod_new_validates_modulus_witness :
    Zmod.new (-1) = Except.error "Modulus must be positive" ∧
      Zmod.new 5 = Except.ok ⟨5⟩ :=
  ⟨(zmod_new_validates_modulus (-1)).1 (by decide),
   (zmod_new_validates_modulus 5).2 (by decide)⟩

/-- Claim C10: `coefficient(i)` is `Some` of the stored degree-`i` coefficient
exactly when `i` is below the stored length, and `None` otherwise — never a
synthesized ring zero. -/
theorem coefficient_some_iff_index_lt (l : List R) (i : ℕ) :
    (∀ h : i < l.length, coefficient l i = some (l.get ⟨i, h⟩)) ∧
      (l.length ≤ i → coefficient l i = none) := by
  constructor
  · intro h
    simp [coefficient, List.get?_eq_get h]
  · intro h
    simp only [coefficient, List.get?_eq_none]
    exact h

/-- Witness for C10 on a concrete list, at an in-range and an out-of-range index. -/
theorem coefficient_some_iff_index_lt_witness :
    coefficient [(7 : ℤ), 8] 1 = some 8 ∧ coefficient [(7 : ℤ), 8] 5 = none := by
  refine ⟨?_, (coefficient_some_iff_index_lt [(7 : ℤ), 8] 5).2 (by decide)⟩
  have h := (coefficient_some_iff_index_lt [(7 : ℤ), 8] 1).1 (by decide)
  simpa using h

/-- The invariant holds after `ZmodNumber::new` whenever every modulus passed
in is positive. -/
theorem ZmodNumber.in_range_new (n : ℤ) (m : Option ℤ)
    (hm : ∀ md, m = some md → 0 < md) :
    (ZmodNumber.new n m).in_range = true := by
  match m with
  | none => simp [ZmodNumber.new, ZmodNumber.in_range]
  | some md =>
    have hpos : 0 < md := hm md rfl
    simp only [ZmodNumber.new, ZmodNumber.in_range, decide_eq_true_eq]
    exact ⟨Int.emod_nonneg n (by omega), Int.emod_lt_of_pos n hpos⟩

/-- The invariant holds after `reduce_w_modulus` whenever the carried modulus
is positive. -/
theorem ZmodNumber.in_range_reduce (x : ZmodNumber)
    (hx : x.pos_modulus = true) : x.reduce_w_modulus.in_range = true := by
  rcases x with ⟨n, m⟩
  match m with
  | none => simp [ZmodNumber.reduce_w_modulus, ZmodNumber.in_range]
  | some md =>
    simp only [ZmodNumber.pos_modulus, decide_eq_true_eq] at hx
    simp only [ZmodNumber.reduce_w_modulus, ZmodNumber.in_range, decide_eq_true_eq]
    exact ⟨Int.emod_nonneg n (by omega), Int.emod_lt_of_pos n hx⟩

/-- A left-preferred merge of two positive moduli is positive when present. -/
theorem ZmodNumber.pos_modulus_or (x y : ZmodNumber)
    (hx : x.pos_modulus = true) (hy : y.pos_modulus = true) :
    ∀ md, ZmodNumber.modulus_or x.modulus y.modulus = some md → 0 < md := by
  rcases x with ⟨n, mx⟩
  rcases y with ⟨p, my⟩
  match mx, my with
  | none, none => intro md h; simp [ZmodNumber.modulus_or] at h
  | none, some m2 =>
    intro md h
    simp only [ZmodNumber.modulus_or, Option.some.injEq] at h
    simp only [ZmodNumber.pos_modulus, decide_eq_true_eq] at hy
    omega
  | some m1, _ =>
    intro md h
    simp only [ZmodNumber.modulus_or, Option.some.injEq] at h
    simp only [ZmodNumber.pos_modulus, decide_eq_true_eq] at hx
    omega

/-- A value with a positive modulus keeps a positive modulus claim through any
modulus it exposes. -/
theorem ZmodNumber.pos_modulus_elim (x : ZmodNumber) (hx : x.pos_modulus = true) :
    ∀ md, x.modulus = some md → 0 < md := by
  rcases x with ⟨n, m⟩
  match m with
  | none => intro md h; simp at h
  | some m1 =>
    intro md h
    simp only [Option.some.injEq] at h
    simp only [ZmodNumber.pos_modulus, decide_eq_true_eq] at hx
    omega

/-- Claim C8: every `ZmodNumber` produced by construction or by any of the
arithmetic operations — negation, the non-mutating and mutating forms of
addition, subtraction and multiplication, including the `usize`-operand
variants — keeps its stored integer in `[0, modulus)` whenever it carries a
modulus (all moduli supplied being positive, as `Zmod` guarantees). -/
theorem zmodnumber_invariant (n m : ℤ) (r : ℕ) (x y : ZmodNumber)
    (hm : 0 < m) (hx : x.pos_modulus = true) (hy : y.pos_modulus = true) :
    (ZmodNumber.new n (some m)).in_range = true ∧
    (ZmodNumber.new n none).in_range = true ∧
    (x.neg_ffn).in_range = true ∧
    (x.add_ffn y).in_range = true ∧
    (x.add_usize_ffn r).in_range = true ∧
    (x.add_assign_ffn y).in_range = true ∧
    (x.add_assign_usize_ffn r).in_range = true ∧
    (x.sub_ffn y).in_range = true ∧
    (x.sub_usize_ffn r).in_range = true ∧
    (x.sub_assign_ffn y).in_range = true ∧
    (x.sub_assign_usize_ffn r).in_range = true ∧
    (x.mul_ffn y).in_range = true ∧
    (x.mul_usize_ffn r).in_range = true ∧
    (x.mul_assign_ffn y).in_range = true ∧
    (x.mul_assign_usize_ffn r).in_range = true := by
  have hxe := ZmodNumber.pos_modulus_elim x hx
  have hor := ZmodNumber.pos_modulus_or x y hx hy
  refine ⟨?_, ?_, ?_, ?_, ?_, ?_, ?_, ?_, ?_, ?_, ?_, ?_, ?_, ?_, ?_⟩
  · exact ZmodNumber.in_range_new _ _ (by intro md h; simp only [Option.some.injEq] at h; omega)
  · exact ZmodNumber.in_range_new _ _ (by intro md h; simp at h)
  · exact ZmodNumber.in_range_new _ _ hxe
  · exact ZmodNumber.in_range_new _ _ hor
  · exact ZmodNumber.in_range_new _ _ hxe
  · exact ZmodNumber.in_range_reduce _ hx
  · exact ZmodNumber.in_range_reduce _ hx
  · exact ZmodNumber.in_range_new _ _ hor
  · exact ZmodNumber.in_range_new _ _ hxe
  · exact ZmodNumber.in_range_reduce _ hx
  · exact ZmodNumber.in_range_reduce _ hx
  · exact ZmodNumber.in_range_new _ _ hor
  · exact ZmodNumber.in_range_new _ _ hxe
  · exact ZmodNumber.in_range_reduce _ hx
  · exact ZmodNumber.in_range_reduce _ hx

/-- Witness for C8 at concrete values: modulus 5, operands 2 mod 5 and 1 mod 3. -/
theorem zmodnumber_invariant_witness :
    (ZmodNumber.new 7 (some 5)).in_range = true ∧
    (ZmodNumber.new 7 none).in_range = true ∧
    (ZmodNumber.neg_ffn ⟨2, some 5⟩).in_range = true ∧
    (ZmodNumber.add_ffn ⟨2, some 5⟩ ⟨1, some 3⟩).in_range = true ∧
    (ZmodNumber.add_usize_ffn ⟨2, some 5⟩ 4).in_range = true ∧
    (ZmodNumber.add_assign_ffn ⟨2, some 5⟩ ⟨1, some 3⟩).in_range = true ∧
    (ZmodNumber.add_assign_usize_ffn ⟨2, some 5⟩ 4).in_range = true ∧
    (ZmodNumber.sub_ffn ⟨2, some 5⟩ ⟨1, some 3⟩).in_range = true ∧
    (ZmodNumber.sub_usize_ffn ⟨2, some 5⟩ 4).in_range = true ∧
    (ZmodNumber.sub_assign_ffn ⟨2, some 5⟩ ⟨1, some 3⟩).in_range = true ∧
    (ZmodNumber.sub_assign_usize_ffn ⟨2, some 5⟩ 4).in_range = true ∧
    (ZmodNumber.mul_ffn ⟨2, some 5⟩ ⟨1, some 3⟩).in_range = true ∧
    (ZmodNumber.mul_usize_ffn ⟨2, some 5⟩ 4).in_range = true ∧
    (ZmodNumber.mul_assign_ffn ⟨2, some 5⟩ ⟨1, some 3⟩).in_range = true ∧
    (ZmodNumber.mul_assign_usize_ffn ⟨2, some 5⟩ 4).in_range = true :=
  zmodnumber_invariant 7 5 4 ⟨2, some 5⟩ ⟨1, some 3⟩ (by decide) (by decide) (by decide)

end Scatmath
